import Mathlib

/-!
Verification of the ROJT procedural-geometry core against its design
specification.  The development shallowly embeds the JavaScript source:

* the Scalar Noise Field (src/sketch.js, `noise` / `fade` / `lerp` / `grad`
  and the permutation table `p`),
* the PRNG-driven circle packer (`CirclePacker`),
* the boolean composition pipeline of `buildSculpture` (the two class folds,
  the base-plate step and the final subtraction interlock), with the external
  CSG kernel modelled as an oracle,
* the frame extrusion generator (`drawCubeFrame` / `createCube` and the
  frame loop of `buildSculpture`),
* the lattice mesh synthesizer (`ParametricDiamond`).

Numbers are embedded as exact rationals (or reals where the source uses
transcendental functions); IEEE rounding of the JavaScript doubles is not
modelled.
-/

namespace ROJT

/-! ### Scalar Noise Field (src/sketch.js lines 52-86)

The permutation table `p` is a 512-entry array with
`p[i] = p[i + 256] = permutation[i]`; it is reseedable (Fisher-Yates shuffle
of `permutation`), so `noise` is parametrised over the table lookup
`P : ℕ → ℕ`.  All indices the source reads are below 512, where
`fun i => permutation.getD (i % 256) 0` agrees with the source array. -/

def fade (t : ℚ) : ℚ := t * t * t * (t * (t * 6 - 15) + 10)

def lerp (t a b : ℚ) : ℚ := a + t * (b - a)

/-- Embedding of `grad(hash, x, y, z)` (src/sketch.js lines 77-82);
`h & 15`, `h & 1`, `h & 2` are the JavaScript bit operations. -/
def grad (hash : ℕ) (x y z : ℚ) : ℚ :=
  let h := hash &&& 15
  let u := if h < 8 then x else y
  let v := if h < 4 then y else if h = 12 ∨ h = 14 then x else z
  (if h &&& 1 = 0 then u else -u) + (if h &&& 2 = 0 then v else -v)

/-- The base permutation table (src/sketch.js line 85). -/
def permutation : List ℕ :=
  [151,160,137,91,90,15,131,13,201,95,96,53,194,233,7,225,140,36,103,30,69,142,
   8,99,37,240,21,10,23,190,6,148,247,120,234,75,0,26,197,62,94,252,219,203,
   117,35,11,32,57,177,33,88,237,149,56,87,174,20,125,136,171,168,68,175,74,
   165,71,134,139,48,27,166,77,146,158,231,83,111,229,122,60,211,133,230,220,
   105,92,41,55,46,245,40,244,102,143,54,65,25,63,161,1,216,80,73,209,76,132,
   187,208,89,18,169,200,196,135,130,116,188,159,86,164,100,109,198,173,186,3,
   64,52,217,226,250,124,123,5,202,38,147,118,126,255,82,85,212,207,206,59,227,
   47,16,58,17,182,189,28,42,223,183,170,213,119,248,152,2,44,154,163,70,221,
   153,101,155,167,43,172,9,129,22,39,253,19,98,108,110,79,113,224,232,178,185,
   112,104,218,246,97,228,251,34,242,193,238,210,144,12,191,179,162,241,81,51,
   145,235,249,14,239,107,49,192,214,31,181,199,106,157,184,84,204,176,115,121,
   50,45,127,4,150,254,138,236,205,93,222,114,67,29,24,72,243,141,128,195,78,
   66,215,61,156,180]

/-- The default 512-entry lookup built at src/sketch.js line 86
(`p[i] = p[i + 256] = permutation[i]`), valid for the indices 0..511 that
`noise` reads. -/
def pTab (i : ℕ) : ℕ := permutation.getD (i % 256) 0

/-- Lattice coordinate `Math.floor(x) & 255`.  JavaScript `&` acts on the
two's-complement 32-bit integer, so for the values in range it equals the
nonnegative residue modulo 256. -/
def lattice (t : ℚ) : ℕ := ((Int.floor t) % 256).toNat

/-- Embedding of `noise(x, y, z)` (src/sketch.js lines 52-73), parametrised
by the permutation-table lookup `P`. -/
def noise (P : ℕ → ℕ) (x y z : ℚ) : ℚ :=
  let X := lattice x
  let Y := lattice y
  let Z := lattice z
  let xf := Int.fract x
  let yf := Int.fract y
  let zf := Int.fract z
  let u := fade xf
  let v := fade yf
  let w := fade zf
  let A := (P X + Y) % 256
  let B := (P (X + 1) + Y) % 256
  let AA := (P A + Z) % 256
  let BA := (P B + Z) % 256
  let AB := (P (A + 1) + Z) % 256
  let BB := (P (B + 1) + Z) % 256
  lerp w
    (lerp v (lerp u (grad (P AA) xf yf zf) (grad (P BA) (xf - 1) yf zf))
            (lerp u (grad (P AB) xf (yf - 1) zf) (grad (P BB) (xf - 1) (yf - 1) zf)))
    (lerp v (lerp u (grad (P (AA + 1)) xf yf (zf - 1)) (grad (P (BA + 1)) (xf - 1) yf (zf - 1)))
            (lerp u (grad (P (AB + 1)) xf (yf - 1) (zf - 1)) (grad (P (BB + 1)) (xf - 1) (yf - 1) (zf - 1))))

theorem lattice_add_256 (t : ℚ) : lattice (t + 256) = lattice t := by
  unfold lattice
  have h : (Int.floor (t + 256) : ℤ) = Int.floor t + 256 := by
    have := Int.floor_add_int t (256 : ℤ)
    push_cast at this
    simpa using this
  rw [h]
  omega

theorem fract_add_256 (t : ℚ) : Int.fract (t + 256) = Int.fract t := by
  have := Int.fract_add_int t (256 : ℤ)
  push_cast at this
  simpa using this

/-- C10: the noise field is periodic with period 256 in each coordinate. -/
theorem noise_periodic (P : ℕ → ℕ) (x y z : ℚ) :
    noise P (x + 256) y z = noise P x y z ∧
    noise P x (y + 256) z = noise P x y z ∧
    noise P x y (z + 256) = noise P x y z := by
  refine ⟨?_, ?_, ?_⟩ <;>
    simp only [noise, lattice_add_256, fract_add_256]

/-! ### PRNG-driven Packer (src/unnamed/part_000, class CirclePacker)

`pack` draws 5000 random candidate circles (radius biased by
`Math.pow(Math.random(), ...)`, center uniform in the bounds) and accepts a
candidate iff it is within bounds and does not overlap an accepted circle.
The random draws are modelled as an oracle list `trials` of candidate
circles; the claims verified here do not depend on the distribution. -/

structure Circle where
  x : ℚ
  y : ℚ
  radius : ℚ
  deriving DecidableEq

structure Bounds where
  width : ℚ
  height : ℚ
  deriving DecidableEq

/-- Squared center distance `dx*dx + dy*dy` between a candidate position and
an existing circle (src/unnamed/part_000 lines 19-21). -/
def distSq (x y : ℚ) (c : Circle) : ℚ := (x - c.x) ^ 2 + (y - c.y) ^ 2

/-- Embedding of the per-circle test of `CirclePacker.isOverlapping`
(lines 17-28): the source compares `Math.sqrt(dx*dx + dy*dy) < radius +
circle.radius`; since the square root is nonnegative and strictly monotone,
that comparison is exactly `0 < s ∧ dx*dx + dy*dy < s^2` with
`s = radius + circle.radius` (see `sqrt_lt_sum_iff` below), which keeps the
embedding executable over ℚ. -/
def overlapsCircle (x y radius : ℚ) (c : Circle) : Bool :=
  decide (0 < radius + c.radius ∧ distSq x y c < (radius + c.radius) ^ 2)

/-- Justification that `overlapsCircle` is the source's square-root
comparison. -/
theorem sqrt_lt_sum_iff (d s : ℝ) (hd : 0 ≤ d) :
    Real.sqrt d < s ↔ 0 < s ∧ d < s ^ 2 := by
  constructor
  · intro h
    have hs : 0 < s := lt_of_le_of_lt (Real.sqrt_nonneg d) h
    refine ⟨hs, ?_⟩
    exact (Real.sqrt_lt' hs).mp h
  · rintro ⟨hs, hlt⟩
    exact (Real.sqrt_lt' hs).mpr hlt

def isOverlapping (circles : List Circle) (x y radius : ℚ) : Bool :=
  circles.any (overlapsCircle x y radius)

/-- Embedding of `CirclePacker.isWithinBounds` (lines 31-36). -/
def isWithinBounds (b : Bounds) (x y radius : ℚ) : Bool :=
  decide (x - radius > -b.width / 2 ∧ x + radius < b.width / 2 ∧
          y - radius > -b.height / 2 ∧ y + radius < b.height / 2)

/-- The fixed attempt budget `this.attempts = 5000` (line 13). -/
def attempts : ℕ := 5000

/-- The trial loop of `CirclePacker.pack` (lines 44-59): the loop runs while
trials remain (at most `attempts`, enforced in `pack`) and `placed < count`;
an accepted candidate is appended to the list of circles. -/
def packLoop (b : Bounds) (count : ℕ) : List Circle → List Circle → List Circle
  | [], acc => acc
  | c :: rest, acc =>
    if acc.length < count then
      if isWithinBounds b c.x c.y c.radius && !isOverlapping acc c.x c.y c.radius then
        packLoop b count rest (acc ++ [c])
      else
        packLoop b count rest acc
    else acc

/-- Embedding of `CirclePacker.pack(count)` (lines 39-62) over the oracle
list of random candidates. -/
def pack (b : Bounds) (count : ℕ) (trials : List Circle) : List Circle :=
  packLoop b count (trials.take attempts) []

theorem packLoop_stop (b : Bounds) (count : ℕ) (trials acc : List Circle)
    (h : count ≤ acc.length) : packLoop b count trials acc = acc := by
  cases trials with
  | nil => rfl
  | cons c rest =>
    simp only [packLoop, if_neg (by omega : ¬ acc.length < count)]

theorem packLoop_length_le (b : Bounds) (count : ℕ) :
    ∀ trials acc : List Circle, acc.length ≤ count →
      (packLoop b count trials acc).length ≤ count := by
  intro trials
  induction trials with
  | nil => intro acc h; exact h
  | cons c rest ih =>
    intro acc h
    by_cases hlen : acc.length < count
    · simp only [packLoop, if_pos hlen]
      split
      · exact ih (acc ++ [c]) (by simp; omega)
      · exact ih acc h
    · simp only [packLoop, if_neg hlen]; exact h

theorem packLoop_length_le_add (b : Bounds) (count : ℕ) :
    ∀ trials acc : List Circle,
      (packLoop b count trials acc).length ≤ acc.length + trials.length := by
  intro trials
  induction trials with
  | nil => intro acc; simp [packLoop]
  | cons c rest ih =>
    intro acc
    by_cases hlen : acc.length < count
    · simp only [packLoop, if_pos hlen]
      split
      · have h2 := ih (acc ++ [c])
        simp only [List.length_append, List.length_singleton] at h2
        simp only [List.length_cons]
        omega
      · have h2 := ih acc
        simp only [List.length_cons]
        omega
    · simp only [packLoop, if_neg hlen, List.length_cons]
      omega

/-- C5: the packer performs at most the fixed budget of 5000 trials (the
result only depends on the first 5000 candidates and has at most 5000
elements), returns at most `count` circles, and stops as soon as `count`
circles are accepted; it is a total function (no error on under-delivery). -/
theorem pack_budget (b : Bounds) (count : ℕ) (trials : List Circle) :
    (pack b count trials).length ≤ count ∧
    (pack b count trials).length ≤ attempts ∧
    pack b count trials = pack b count (trials.take attempts) ∧
    (∀ rest acc : List Circle, count ≤ acc.length → packLoop b count rest acc = acc) := by
  refine ⟨?_, ?_, ?_, ?_⟩
  · exact packLoop_length_le b count _ [] (by simp)
  · have := packLoop_length_le_add b count (trials.take attempts) []
    have hlen : (trials.take attempts).length ≤ attempts := by
      simp [List.length_take]
    simpa [pack] using this.trans (by simpa using hlen)
  · simp [pack, List.take_take]
  · exact fun rest acc h => packLoop_stop b count rest acc h

theorem pack_budget_witness :
    (pack ⟨50, 50⟩ 1 [⟨0, 0, 1⟩, ⟨3, 0, 1⟩]).length ≤ 1 ∧
    (pack ⟨50, 50⟩ 1 [⟨0, 0, 1⟩, ⟨3, 0, 1⟩]).length ≤ attempts ∧
    pack ⟨50, 50⟩ 1 [⟨0, 0, 1⟩, ⟨3, 0, 1⟩]
      = pack ⟨50, 50⟩ 1 ([⟨0, 0, 1⟩, ⟨3, 0, 1⟩].take attempts) ∧
    packLoop ⟨50, 50⟩ 1 [⟨3, 0, 1⟩] [⟨0, 0, 1⟩] = [⟨0, 0, 1⟩] := by
  have h := pack_budget ⟨50, 50⟩ 1 [⟨0, 0, 1⟩, ⟨3, 0, 1⟩]
  exact ⟨h.1, h.2.1, h.2.2.1, h.2.2.2 [⟨3, 0, 1⟩] [⟨0, 0, 1⟩] (by decide)⟩

/-- The non-overlap relation the packer guarantees between an earlier and a
later accepted circle, stated with the source's true-distance comparison. -/
def NoOverlap (c1 c2 : Circle) : Prop :=
  (c1.radius : ℝ) + c2.radius ≤ Real.sqrt ((distSq c2.x c2.y c1 : ℚ) : ℝ)

theorem accepted_no_overlap {acc : List Circle} {c : Circle}
    (h : isOverlapping acc c.x c.y c.radius = false) :
    ∀ c1 ∈ acc, NoOverlap c1 c := by
  intro c1 hc1
  have hnot : overlapsCircle c.x c.y c.radius c1 = false := by
    by_contra hcon
    have : isOverlapping acc c.x c.y c.radius = true := by
      simp only [isOverlapping, List.any_eq_true]
      exact ⟨c1, hc1, by revert hcon; cases overlapsCircle c.x c.y c.radius c1 <;> simp⟩
    rw [this] at h; cases h
  simp only [overlapsCircle, decide_eq_false_iff_not, not_and, not_lt] at hnot
  unfold NoOverlap
  by_cases hs : (0 : ℚ) < c.radius + c1.radius
  · have hge : (c.radius + c1.radius) ^ 2 ≤ distSq c.x c.y c1 := hnot hs
    have hsr : (0 : ℝ) < (c.radius : ℝ) + c1.radius := by exact_mod_cast hs
    have h2 : ((c.radius : ℝ) + c1.radius) ^ 2 ≤ ((distSq c.x c.y c1 : ℚ) : ℝ) := by
      exact_mod_cast hge
    have := Real.sqrt_le_sqrt h2
    rw [Real.sqrt_sq hsr.le] at this
    calc (c1.radius : ℝ) + c.radius = (c.radius : ℝ) + c1.radius := by ring
    _ ≤ Real.sqrt ((distSq c.x c.y c1 : ℚ) : ℝ) := this
  · push_neg at hs
    have hsr : (c.radius : ℝ) + c1.radius ≤ 0 := by exact_mod_cast hs
    calc (c1.radius : ℝ) + c.radius ≤ 0 := by linarith
    _ ≤ Real.sqrt ((distSq c.x c.y c1 : ℚ) : ℝ) := Real.sqrt_nonneg _

/-- The per-circle bounds property checked by `isWithinBounds`. -/
def InBounds (b : Bounds) (c : Circle) : Prop :=
  c.x - c.radius > -b.width / 2 ∧ c.x + c.radius < b.width / 2 ∧
  c.y - c.radius > -b.height / 2 ∧ c.y + c.radius < b.height / 2

theorem packLoop_sound (b : Bounds) (count : ℕ) :
    ∀ trials acc : List Circle,
      acc.Pairwise NoOverlap → (∀ c ∈ acc, InBounds b c) →
      (packLoop b count trials acc).Pairwise NoOverlap ∧
      (∀ c ∈ packLoop b count trials acc, InBounds b c) ∧
      ∃ s, packLoop b count trials acc = acc ++ s ∧ s.Sublist trials := by
  intro trials
  induction trials with
  | nil =>
    intro acc hpw hin
    exact ⟨hpw, hin, [], by simp [packLoop], List.nil_sublist _⟩
  | cons c rest ih =>
    intro acc hpw hin
    by_cases hlen : acc.length < count
    · simp only [packLoop, if_pos hlen]
      by_cases hacc :
          (isWithinBounds b c.x c.y c.radius && !isOverlapping acc c.x c.y c.radius) = true
      · rw [if_pos hacc]
        simp only [Bool.and_eq_true, Bool.not_eq_true'] at hacc
        have hpw' : (acc ++ [c]).Pairwise NoOverlap := by
          rw [List.pairwise_append]
          refine ⟨hpw, List.pairwise_singleton _ _, ?_⟩
          intro c1 hc1 c2 hc2
          rw [List.mem_singleton] at hc2
          subst hc2
          exact accepted_no_overlap hacc.2 c1 hc1
        have hin' : ∀ c' ∈ acc ++ [c], InBounds b c' := by
          intro c' hc'
          rcases List.mem_append.mp hc' with h1 | h2
          · exact hin c' h1
          · rw [List.mem_singleton] at h2
            subst h2
            have := hacc.1
            simp only [isWithinBounds, decide_eq_true_eq] at this
            exact this
        obtain ⟨s, hs, hsub⟩ := (ih (acc ++ [c]) hpw' hin').2.2
        refine ⟨(ih (acc ++ [c]) hpw' hin').1, (ih (acc ++ [c]) hpw' hin').2.1,
          c :: s, ?_, ?_⟩
        · rw [hs, List.append_assoc]; rfl
        · exact List.Sublist.cons₂ c hsub
      · rw [if_neg hacc]
        obtain ⟨s, hs, hsub⟩ := (ih acc hpw hin).2.2
        exact ⟨(ih acc hpw hin).1, (ih acc hpw hin).2.1, s, hs, hsub.cons c⟩
    · simp only [packLoop, if_neg hlen]
      exact ⟨hpw, hin, [], by simp, List.nil_sublist _⟩

/-- C4: in any completed run of `pack`, the returned circles are pairwise
non-overlapping in the source's metric (center distance at least the sum of
radii), each lies strictly inside the bounds with its radius inset, and the
returned list is in insertion order (a sublist of the candidate stream). -/
theorem pack_sound (b : Bounds) (count : ℕ) (trials : List Circle) :
    (pack b count trials).Pairwise NoOverlap ∧
    (∀ c ∈ pack b count trials, InBounds b c) ∧
    (pack b count trials).Sublist trials := by
  obtain ⟨hpw, hin, s, hs, hsub⟩ :=
    packLoop_sound b count (trials.take attempts) [] (List.Pairwise.nil) (by simp)
  refine ⟨hpw, hin, ?_⟩
  have : pack b count trials = s := by simpa [pack] using hs
  rw [this]
  exact hsub.trans (List.take_sublist _ _)

theorem pack_eval_two :
    pack ⟨50, 50⟩ 2 [⟨0, 0, 1⟩, ⟨10, 0, 1⟩] = [⟨0, 0, 1⟩, ⟨10, 0, 1⟩] := by
  have hb1 : isWithinBounds ⟨50, 50⟩ 0 0 1 = true := by
    simp only [isWithinBounds, decide_eq_true_eq]
    norm_num
  have hb2 : isWithinBounds ⟨50, 50⟩ 10 0 1 = true := by
    simp only [isWithinBounds, decide_eq_true_eq]
    norm_num
  have hoc : overlapsCircle 10 0 1 ⟨0, 0, 1⟩ = false := by
    simp only [overlapsCircle, distSq]
    rw [decide_eq_false_iff_not]
    norm_num
  rw [pack, List.take_of_length_le (by norm_num [attempts])]
  norm_num [packLoop, hb1, hb2, hoc, isOverlapping]

theorem pack_sound_witness :
    InBounds ⟨50, 50⟩ ⟨0, 0, 1⟩ ∧
    (pack ⟨50, 50⟩ 2 [⟨0, 0, 1⟩, ⟨10, 0, 1⟩]).Pairwise NoOverlap ∧
    (pack ⟨50, 50⟩ 2 [⟨0, 0, 1⟩, ⟨10, 0, 1⟩]).Sublist [⟨0, 0, 1⟩, ⟨10, 0, 1⟩] := by
  have h := pack_sound ⟨50, 50⟩ 2 [⟨0, 0, 1⟩, ⟨10, 0, 1⟩]
  refine ⟨h.2.1 ⟨0, 0, 1⟩ ?_, h.1, h.2.2⟩
  rw [pack_eval_two]
  simp

/-! ### Boolean Composition Pipeline (src/sketch.js, buildSculpture lines 179-312)

The external CSG kernel (`three-bvh-csg`) is modelled as an oracle
`ev : Solid → Solid → Op → Option Solid` over an abstract solid type:
`none` models `csgEvaluator.evaluate` throwing, `some r` models it returning
the object `r`.  The source's validity test
`result && result.geometry && result.geometry.attributes.position`
is modelled by a predicate `valid : Solid → Bool`.  Geometry disposal is a
resource effect with no bearing on the accumulator values and is not
modelled. -/

inductive Op where
  | ADDITION
  | SUBTRACTION
  deriving DecidableEq

section Pipeline

variable {Solid : Type}

/-- One iteration of the class-merge loops (src/sketch.js lines 214-224 and
232-242): attempt `evaluate(acc, cube, ADDITION)`; on a thrown error or a
result without position data the accumulator is left unchanged, otherwise
it becomes the result. -/
def mergeStep (valid : Solid → Bool) (ev : Solid → Solid → Op → Option Solid)
    (acc cube : Solid) : Solid :=
  match ev acc cube Op.ADDITION with
  | none => acc
  | some r => if valid r then r else acc

/-- A class fold (src/sketch.js lines 211-226 resp. 229-244): if the cube
list is empty the accumulator stays unset (`none`); otherwise it is seeded
with the first cube and every later cube is merged by `mergeStep`. -/
def mergeFold (valid : Solid → Bool) (ev : Solid → Solid → Op → Option Solid)
    (cubes : List Solid) : Option Solid :=
  match cubes with
  | [] => none
  | c :: rest => some (rest.foldl (mergeStep valid ev) c)

/-- Step 2, the base plate (src/sketch.js lines 256-272): if the dark
accumulator is unset it becomes the plate; otherwise `ADDITION` of the plate
is attempted — a valid result replaces the accumulator, an invalid result
leaves it unchanged, and a thrown error replaces the accumulator by the
plate alone (the `catch` branch `darkMergedBrush = baseBrush`). -/
def addBasePlate (valid : Solid → Bool) (ev : Solid → Solid → Op → Option Solid)
    (base : Solid) (dark : Option Solid) : Option Solid :=
  match dark with
  | none => some base
  | some d =>
    match ev d base Op.ADDITION with
    | none => some base
    | some r => if valid r then some r else some d

/-- Step 3, the interlock (src/sketch.js lines 274-288): `SUBTRACTION` of
the dark solid from the light solid; on a thrown error or an invalid result
the light solid is kept as it was. -/
def interlock (valid : Solid → Bool) (ev : Solid → Solid → Op → Option Solid)
    (light dark : Option Solid) : Option Solid :=
  match light, dark with
  | some l, some d =>
    match ev l d Op.SUBTRACTION with
    | none => some l
    | some r => if valid r then some r else some l
  | _, _ => light

/-- The whole composition pipeline of `buildSculpture`: the two class folds,
the base-plate step and the final subtraction interlock. -/
def buildSolids (valid : Solid → Bool) (ev : Solid → Solid → Op → Option Solid)
    (lights darks : List Solid) (base : Solid) : Option Solid × Option Solid :=
  let light := mergeFold valid ev lights
  let dark := addBasePlate valid ev base (mergeFold valid ev darks)
  (interlock valid ev light dark, dark)

/-- C1: the accumulator discipline of the pipeline.  In every stage a failed
operation (thrown, or returning a solid without position data) leaves the
accumulator exactly as it was, and a successful operation installs exactly
its valid result; the single exception is the documented plate fallback of
Step 2, where a thrown `ADDITION` replaces the dark accumulator by the plate
alone.  A class accumulator is unset exactly when its input list is empty,
and if every operation fails the fold still returns the seed untouched. -/
theorem pipeline_invariant (valid : Solid → Bool)
    (ev : Solid → Solid → Op → Option Solid) :
    (∀ acc cube : Solid, ev acc cube Op.ADDITION = none →
      mergeStep valid ev acc cube = acc) ∧
    (∀ acc cube r : Solid, ev acc cube Op.ADDITION = some r → valid r = false →
      mergeStep valid ev acc cube = acc) ∧
    (∀ acc cube r : Solid, ev acc cube Op.ADDITION = some r → valid r = true →
      mergeStep valid ev acc cube = r) ∧
    (∀ cubes : List Solid, mergeFold valid ev cubes = none ↔ cubes = []) ∧
    (∀ d base r : Solid, ev d base Op.ADDITION = some r → valid r = false →
      addBasePlate valid ev base (some d) = some d) ∧
    (∀ d base : Solid, ev d base Op.ADDITION = none →
      addBasePlate valid ev base (some d) = some base) ∧
    (∀ l d : Solid, ev l d Op.SUBTRACTION = none →
      interlock valid ev (some l) (some d) = some l) ∧
    (∀ l d r : Solid, ev l d Op.SUBTRACTION = some r → valid r = false →
      interlock valid ev (some l) (some d) = some l) ∧
    ((∀ a c : Solid, ev a c Op.ADDITION = none) →
      ∀ cubes : List Solid, mergeFold valid ev cubes = cubes.head?) := by
  refine ⟨?_, ?_, ?_, ?_, ?_, ?_, ?_, ?_, ?_⟩
  · intro acc cube h; simp [mergeStep, h]
  · intro acc cube r h hv; simp [mergeStep, h, hv]
  · intro acc cube r h hv; simp [mergeStep, h, hv]
  · intro cubes; cases cubes <;> simp [mergeFold]
  · intro d base r h hv; simp [addBasePlate, h, hv]
  · intro d base h; simp [addBasePlate, h]
  · intro l d h; simp [interlock, h]
  · intro l d r h hv; simp [interlock, h, hv]
  · intro hall cubes
    cases cubes with
    | nil => rfl
    | cons c rest =>
      simp only [mergeFold, List.head?_cons, Option.some.injEq]
      induction rest generalizing c with
      | nil => rfl
      | cons c2 rest2 ih =>
        rw [List.foldl_cons, mergeStep, hall c c2]
        exact ih c

theorem pipeline_invariant_witness :
    mergeStep (fun n => decide (n ≠ 0)) (fun _ _ _ => (none : Option ℕ)) 3 5 = 3 ∧
    mergeFold (fun n => decide (n ≠ 0)) (fun _ _ _ => (none : Option ℕ)) [3, 5] = some 3 := by
  have h := @pipeline_invariant ℕ (fun n => decide (n ≠ 0)) (fun _ _ _ => none)
  refine ⟨h.1 3 5 rfl, ?_⟩
  rw [h.2.2.2.2.2.2.2.2 (fun _ _ => rfl) [3, 5]]
  rfl

/-- C2 counterexample: with a kernel call that returns (without throwing) a
result carrying no position data, Step 2 keeps the previous dark
accumulator instead of replacing it by the plate: the claim predicts the
plate `7`, the code keeps `3`. -/
theorem plate_claim_false :
    addBasePlate (fun n => decide (n ≠ 0)) (fun _ _ _ => some 0) (7 : ℕ) (some 3)
      = some 3 ∧
    addBasePlate (fun n => decide (n ≠ 0)) (fun _ _ _ => some 0) (7 : ℕ) (some 3)
      ≠ some 7 := by
  constructor
  · rfl
  · intro h
    rw [show addBasePlate (fun n => decide (n ≠ 0)) (fun _ _ _ => some 0) (7 : ℕ) (some 3)
        = some 3 from rfl] at h
    simp at h

/-- C2 (amended): in Step 2, an unset dark accumulator becomes the plate
unconditionally; a thrown `ADDITION` replaces the dark accumulator by the
plate alone; an `ADDITION` that returns a result without position data
keeps the previous dark accumulator; and in every case the dark solid is
set once Step 2 completes. -/
theorem plate_step_amended (valid : Solid → Bool)
    (ev : Solid → Solid → Op → Option Solid) (base : Solid) :
    addBasePlate valid ev base none = some base ∧
    (∀ d : Solid, ev d base Op.ADDITION = none →
      addBasePlate valid ev base (some d) = some base) ∧
    (∀ d r : Solid, ev d base Op.ADDITION = some r → valid r = false →
      addBasePlate valid ev base (some d) = some d) ∧
    (∀ dark : Option Solid, addBasePlate valid ev base dark ≠ none) := by
  refine ⟨rfl, ?_, ?_, ?_⟩
  · intro d h; simp [addBasePlate, h]
  · intro d r h hv; simp [addBasePlate, h, hv]
  · intro dark
    cases dark with
    | none => simp [addBasePlate]
    | some d =>
      cases hev : ev d base Op.ADDITION with
      | none => simp [addBasePlate, hev]
      | some r => by_cases hv : valid r <;> simp [addBasePlate, hev, hv]

theorem plate_step_amended_witness :
    addBasePlate (fun n => decide (n ≠ 0)) (fun _ _ _ => (none : Option ℕ)) 7 none
      = some 7 ∧
    addBasePlate (fun n => decide (n ≠ 0)) (fun _ _ _ => (none : Option ℕ)) 7 (some 3)
      = some 7 ∧
    addBasePlate (fun n => decide (n ≠ 0)) (fun _ _ _ => (none : Option ℕ)) 7 (some 3)
      ≠ none := by
  have h := @plate_step_amended ℕ (fun n => decide (n ≠ 0))
    (fun _ _ _ => none) 7
  exact ⟨h.1, h.2.1 3 rfl, h.2.2.2 (some 3)⟩

/-- The class fold with the operation at (1-based) position `k` of the cube
list forced to fail; a failed operation leaves the accumulator unchanged,
whether it throws or yields an invalid result, so both failure modes are
modelled by skipping the step. -/
def mergeStepsFrom (valid : Solid → Bool) (ev : Solid → Solid → Op → Option Solid)
    (k : ℕ) : ℕ → Solid → List Solid → Solid
  | _, acc, [] => acc
  | i, acc, c :: rest =>
    mergeStepsFrom valid ev k (i + 1)
      (if i = k then acc else mergeStep valid ev acc c) rest

/-- `mergeFold` with the operation at index `k` forced to fail. -/
def mergeFoldFailAt (valid : Solid → Bool) (ev : Solid → Solid → Op → Option Solid)
    (k : ℕ) (cubes : List Solid) : Option Solid :=
  match cubes with
  | [] => none
  | c :: rest => some (mergeStepsFrom valid ev k 1 c rest)

theorem mergeStepsFrom_past (valid : Solid → Bool)
    (ev : Solid → Solid → Op → Option Solid) (k : ℕ) :
    ∀ (rest : List Solid) (i : ℕ) (acc : Solid), k < i →
      mergeStepsFrom valid ev k i acc rest = rest.foldl (mergeStep valid ev) acc := by
  intro rest
  induction rest with
  | nil => intro i acc _; rfl
  | cons c rest2 ih =>
    intro i acc hk
    rw [mergeStepsFrom, if_neg (by omega), List.foldl_cons]
    exact ih (i + 1) _ (by omega)

theorem mergeStepsFrom_erase (valid : Solid → Bool)
    (ev : Solid → Solid → Op → Option Solid) (k : ℕ) :
    ∀ (rest : List Solid) (i : ℕ) (acc : Solid), i ≤ k → k - i < rest.length →
      mergeStepsFrom valid ev k i acc rest
        = (rest.eraseIdx (k - i)).foldl (mergeStep valid ev) acc := by
  intro rest
  induction rest with
  | nil => intro i acc _ h; simp at h
  | cons c rest2 ih =>
    intro i acc hik hlt
    by_cases hik2 : i = k
    · subst hik2
      rw [mergeStepsFrom, if_pos rfl, Nat.sub_self, List.eraseIdx_cons_zero]
      exact mergeStepsFrom_past valid ev i rest2 (i + 1) acc (by omega)
    · have hk : i < k := lt_of_le_of_ne hik hik2
      have hdiff : k - i = (k - (i + 1)) + 1 := by omega
      rw [mergeStepsFrom, if_neg hik2, hdiff, List.eraseIdx_cons_succ, List.foldl_cons]
      exact ih (i + 1) _ (by omega) (by simp at hlt; omega)

/-- C3: a failure (thrown or invalid result) of the `ADDITION` at step
`k > 0` of a class fold, with every other step behaving as it otherwise
would, yields exactly the accumulator of the fold run on the input list
with primitive `k` removed. -/
theorem fold_failure_erases (valid : Solid → Bool)
    (ev : Solid → Solid → Op → Option Solid) (cubes : List Solid) (k : ℕ)
    (hk : 0 < k) (hlen : k < cubes.length) :
    mergeFoldFailAt valid ev k cubes = mergeFold valid ev (cubes.eraseIdx k) := by
  cases cubes with
  | nil => simp at hlen
  | cons c rest =>
    obtain ⟨k2, rfl⟩ : ∃ k2, k = k2 + 1 := ⟨k - 1, by omega⟩
    rw [mergeFoldFailAt, List.eraseIdx_cons_succ, mergeFold]
    rw [mergeStepsFrom_erase valid ev (k2 + 1) rest 1 c (by omega)
      (by simp at hlen; omega), Nat.add_sub_cancel]

theorem fold_failure_erases_witness :
    0 < 1 ∧ 1 < [(1 : ℕ), 2, 3].length ∧
    mergeFoldFailAt (fun n => decide (n ≠ 0)) (fun a b _ => some (a + b)) 1 [1, 2, 3]
      = mergeFold (fun n => decide (n ≠ 0)) (fun a b _ => some (a + b))
          ([(1 : ℕ), 2, 3].eraseIdx 1) := by
  refine ⟨by decide, by decide, ?_⟩
  exact fold_failure_erases (fun n => decide (n ≠ 0)) (fun a b _ => some (a + b))
    [1, 2, 3] 1 (by decide) (by decide)

end Pipeline

/-! ### Bounds on the noise field

For the Frame Extrusion Generator's cells the `z` argument of `noise` is an
integer (the frame size), so the outer interpolation weight `fade zf` is 0
and the noise value is a bilinear interpolation of four `grad` values in the
`z = 0` plane.  The lemmas below bound that interpolation strictly above -1
for every permutation table whenever the two fractional coordinates are not
both exactly 1/2; the generator's boundary cells always satisfy this. -/

theorem abs_grad_le (h : ℕ) (a b : ℚ) : |grad h a b 0| ≤ |a| + |b| := by
  rw [abs_le]
  simp only [grad]
  generalize h &&& 15 = k
  split_ifs <;>
    first
      | (constructor <;>
          linarith [le_abs_self a, neg_abs_le a, le_abs_self b, neg_abs_le b,
            abs_nonneg a, abs_nonneg b])
      | (exfalso; omega)

theorem abs_lerp_le {t a b M N : ℚ} (h0 : 0 ≤ t) (h1 : t ≤ 1)
    (ha : |a| ≤ M) (hb : |b| ≤ N) : |lerp t a b| ≤ (1 - t) * M + t * N := by
  have hrw : lerp t a b = (1 - t) * a + t * b := by unfold lerp; ring
  rw [hrw]
  calc |(1 - t) * a + t * b| ≤ |(1 - t) * a| + |t * b| := abs_add _ _
  _ = (1 - t) * |a| + t * |b| := by
      rw [abs_mul, abs_mul, abs_of_nonneg (by linarith : (0:ℚ) ≤ 1 - t),
        abs_of_nonneg h0]
  _ ≤ (1 - t) * M + t * N := by
      have h2 := mul_le_mul_of_nonneg_left ha (by linarith : (0:ℚ) ≤ 1 - t)
      have h3 := mul_le_mul_of_nonneg_left hb h0
      linarith

theorem fade_nonneg {t : ℚ} (h0 : 0 ≤ t) : 0 ≤ fade t := by
  unfold fade
  nlinarith [sq_nonneg (4 * t - 5), mul_nonneg (mul_nonneg h0 h0) h0]

theorem fade_le_one {t : ℚ} (h1 : t ≤ 1) : fade t ≤ 1 := by
  unfold fade
  nlinarith [sq_nonneg (4 * t + 1),
    mul_nonneg (mul_nonneg (by linarith : (0:ℚ) ≤ 1 - t) (by linarith : (0:ℚ) ≤ 1 - t))
      (by linarith : (0:ℚ) ≤ 1 - t)]

/-- The weight `(1-u)*t + u*(1-t)` with `u = fade t` appearing in the corner
bound of the bilinear interpolation. -/
def cornerWeight (t : ℚ) : ℚ := (1 - fade t) * t + fade t * (1 - t)

theorem q_pos (t : ℚ) : 0 < 3 * (t * (1 - t)) ^ 2 + t * (1 - t) + 1 / 2 := by
  nlinarith [sq_nonneg (6 * (t * (1 - t)) + 1)]

theorem cornerWeight_sub_half (t : ℚ) :
    cornerWeight t - 1 / 2
      = -4 * (t - 1 / 2) ^ 2 * (3 * (t * (1 - t)) ^ 2 + t * (1 - t) + 1 / 2) := by
  unfold cornerWeight fade
  ring

theorem cornerWeight_le_half (t : ℚ) : cornerWeight t ≤ 1 / 2 := by
  have h1 := cornerWeight_sub_half t
  have h2 := q_pos t
  nlinarith [sq_nonneg (t - 1 / 2)]

theorem cornerWeight_lt_half {t : ℚ} (ht : t ≠ 1 / 2) : cornerWeight t < 1 / 2 := by
  have h1 := cornerWeight_sub_half t
  have h2 := q_pos t
  have h3 : (0:ℚ) < (t - 1 / 2) ^ 2 := by
    have h4 : t - 1 / 2 ≠ 0 := fun h => ht (by linarith)
    exact lt_of_le_of_ne (sq_nonneg _) (Ne.symm (pow_ne_zero 2 h4))
  nlinarith

theorem abs_bilerp_le {u v xf yf a b c d : ℚ}
    (hu0 : 0 ≤ u) (hu1 : u ≤ 1) (hv0 : 0 ≤ v) (hv1 : v ≤ 1)
    (ha : |a| ≤ xf + yf) (hb : |b| ≤ (1 - xf) + yf)
    (hc : |c| ≤ xf + (1 - yf)) (hd : |d| ≤ (1 - xf) + (1 - yf)) :
    |lerp v (lerp u a b) (lerp u c d)|
      ≤ ((1 - u) * xf + u * (1 - xf)) + ((1 - v) * yf + v * (1 - yf)) := by
  have hL0 := abs_lerp_le hu0 hu1 ha hb
  have hL1 := abs_lerp_le hu0 hu1 hc hd
  have hT := abs_lerp_le hv0 hv1 hL0 hL1
  calc |lerp v (lerp u a b) (lerp u c d)|
      ≤ (1 - v) * ((1 - u) * (xf + yf) + u * ((1 - xf) + yf))
        + v * ((1 - u) * (xf + (1 - yf)) + u * ((1 - xf) + (1 - yf))) := hT
  _ = ((1 - u) * xf + u * (1 - xf)) + ((1 - v) * yf + v * (1 - yf)) := by ring

theorem abs_noise_le (P : ℕ → ℕ) (x y z : ℚ) (hz : Int.fract z = 0) :
    |noise P x y z| ≤ cornerWeight (Int.fract x) + cornerWeight (Int.fract y) := by
  have hx0 : 0 ≤ Int.fract x := Int.fract_nonneg x
  have hx1 : Int.fract x < 1 := Int.fract_lt_one x
  have hy0 : 0 ≤ Int.fract y := Int.fract_nonneg y
  have hy1 : Int.fract y < 1 := Int.fract_lt_one y
  have habs : ∀ (h : ℕ) (a b : ℚ), 0 ≤ a → a < 1 → 0 ≤ b → b < 1 →
      |grad h a b 0| ≤ a + b ∧ |grad h (a - 1) b 0| ≤ (1 - a) + b ∧
      |grad h a (b - 1) 0| ≤ a + (1 - b) ∧
      |grad h (a - 1) (b - 1) 0| ≤ (1 - a) + (1 - b) := by
    intro h a b ha0 ha1 hb0 hb1
    refine ⟨?_, ?_, ?_, ?_⟩
    · have := abs_grad_le h a b
      rwa [abs_of_nonneg ha0, abs_of_nonneg hb0] at this
    · have := abs_grad_le h (a - 1) b
      rwa [abs_of_nonpos (show a - 1 ≤ 0 by linarith), abs_of_nonneg hb0,
        neg_sub] at this
    · have := abs_grad_le h a (b - 1)
      rwa [abs_of_nonneg ha0, abs_of_nonpos (show b - 1 ≤ 0 by linarith),
        neg_sub] at this
    · have := abs_grad_le h (a - 1) (b - 1)
      rwa [abs_of_nonpos (show a - 1 ≤ 0 by linarith),
        abs_of_nonpos (show b - 1 ≤ 0 by linarith), neg_sub, neg_sub] at this
  simp only [noise, hz]
  rw [show fade 0 = 0 from by norm_num [fade]]
  rw [show ∀ a b : ℚ, lerp 0 a b = a from fun a b => by simp [lerp]]
  have hu0 := fade_nonneg hx0
  have hu1 := fade_le_one hx1.le
  have hv0 := fade_nonneg hy0
  have hv1 := fade_le_one hy1.le
  calc |lerp (fade (Int.fract y))
          (lerp (fade (Int.fract x)) _ _) (lerp (fade (Int.fract x)) _ _)|
      ≤ ((1 - fade (Int.fract x)) * Int.fract x + fade (Int.fract x) * (1 - Int.fract x))
        + ((1 - fade (Int.fract y)) * Int.fract y + fade (Int.fract y) * (1 - Int.fract y)) := by
        refine abs_bilerp_le hu0 hu1 hv0 hv1 ?_ ?_ ?_ ?_
        · exact (habs _ _ _ hx0 hx1 hy0 hy1).1
        · exact (habs _ _ _ hx0 hx1 hy0 hy1).2.1
        · exact (habs _ _ _ hx0 hx1 hy0 hy1).2.2.1
        · exact (habs _ _ _ hx0 hx1 hy0 hy1).2.2.2
  _ = cornerWeight (Int.fract x) + cornerWeight (Int.fract y) := by
        unfold cornerWeight; ring

/-- Strict lower bound on the noise field at the generator's sample points:
whenever the `z` argument is an integer and the fractional parts of `x` and
`y` are not both 1/2, the noise value is strictly above -1 (for every
permutation table). -/
theorem noise_gt_neg_one (P : ℕ → ℕ) (x y z : ℚ) (hz : Int.fract z = 0)
    (hxy : Int.fract x ≠ 1 / 2 ∨ Int.fract y ≠ 1 / 2) :
    -1 < noise P x y z := by
  have hb := abs_noise_le P x y z hz
  have h1 : cornerWeight (Int.fract x) + cornerWeight (Int.fract y) < 1 := by
    rcases hxy with h | h
    · have h2 := cornerWeight_lt_half h
      have h3 := cornerWeight_le_half (Int.fract y)
      linarith
    · have h2 := cornerWeight_le_half (Int.fract x)
      have h3 := cornerWeight_lt_half h
      linarith
  have h4 := neg_abs_le (noise P x y z)
  linarith

/-! ### Frame Extrusion Generator (src/sketch.js lines 116-176 and 201-206)

`drawCubeFrame(side, size)` scans the lattice `x, y ∈ [-side/2, side/2]`
with step `size`, keeps only points on the four edges of the square, and for
each kept point computes an extrusion offset `zPos`, an extrusion `height`
and a light/dark class from two noise samples.  A cell records the argument
tuple `(x, y, zPos, size, height, isDark)` of the resulting `createCube`
call.  `lightDarkThreshold` and the permutation table are parameters. -/

structure Cell where
  x : ℚ
  y : ℚ
  zPos : ℚ
  size : ℚ
  height : ℚ
  isDark : Bool
  deriving DecidableEq

/-- Embedding of the box brush built by `createCube` (src/sketch.js lines
116-131): dimensions clamped to a minimum of 0.01, positioned at
`(x, y, z)`. -/
structure Brush where
  px : ℚ
  py : ℚ
  pz : ℚ
  dimX : ℚ
  dimY : ℚ
  dimZ : ℚ
  dark : Bool
  deriving DecidableEq

def createCube (x y z size height : ℚ) (isDark : Bool) : Brush :=
  ⟨x, y, z, max size 0.01, max size 0.01, max height 0.01, isDark⟩

def Cell.brush (c : Cell) : Brush :=
  createCube c.x c.y c.zPos c.size c.height c.isDark

/-- The normalized noise sample `nF = (noise(absX/10, absY/10, size)+1)/2`
(src/sketch.js line 146). -/
def nF (P : ℕ → ℕ) (absX absY size : ℚ) : ℚ :=
  (noise P (absX / 10) (absY / 10) size + 1) / 2

/-- The raw noise sample `noise(absX*0.05, absY*0.05)` (src/sketch.js line
147). -/
def noiseValAt (P : ℕ → ℕ) (absX absY : ℚ) : ℚ :=
  noise P (absX * 0.05) (absY * 0.05) 0

/-- The per-point classification of `drawCubeFrame` (src/sketch.js lines
143-164): absolute coordinates for four-way symmetry, then taller light
cells above the threshold, shorter dark cells at or below it. -/
def mkCell (P : ℕ → ℕ) (thr size x y : ℚ) : Cell :=
  let n := nF P |x| |y| size
  if noiseValAt P |x| |y| > thr then
    ⟨x, y, size / 30 * 15 * n, size, size / 30 * 30 * n, false⟩
  else
    ⟨x, y, size / 30 * 5 * n, size, size / 30 * 10 * n, true⟩

/-- The lattice values visited by `for (x = -side/2; x <= side/2; x += size)`.
For `0 < size` these are `-side/2 + k*size` for `0 ≤ k ≤ ⌊side/size⌋`; the
source loop does not terminate for `size ≤ 0` and is never entered with such
arguments, modelled here by the empty list. -/
def gridPoints (side size : ℚ) : List ℚ :=
  if 0 < size then
    (List.range (Int.floor (side / size) + 1).toNat).map
      fun k : ℕ => -side / 2 + (k : ℚ) * size
  else []

/-- The cells produced by one `drawCubeFrame(side, size)` call: all boundary
lattice points in scan order (src/sketch.js lines 138-173). -/
def boundaryCells (P : ℕ → ℕ) (thr side size : ℚ) : List Cell :=
  (gridPoints side size).bind fun x =>
    (gridPoints side size).filterMap fun y =>
      if x = -side / 2 ∨ x = side / 2 ∨ y = -side / 2 ∨ y = side / 2 then
        some (mkCell P thr size x y)
      else none

/-- Embedding of `drawCubeFrame` (src/sketch.js lines 134-176): the boundary
cells partitioned into the `lightCubes` and `darkCubes` lists in push
order. -/
def drawCubeFrame (P : ℕ → ℕ) (thr side size : ℚ) : List Cell × List Cell :=
  ((boundaryCells P thr side size).filter fun c => !c.isDark,
   (boundaryCells P thr side size).filter fun c => c.isDark)

theorem mem_boundaryCells {P : ℕ → ℕ} {thr side size : ℚ} {c : Cell} :
    c ∈ boundaryCells P thr side size ↔
      ∃ x ∈ gridPoints side size, ∃ y ∈ gridPoints side size,
        (x = -side / 2 ∨ x = side / 2 ∨ y = -side / 2 ∨ y = side / 2) ∧
        c = mkCell P thr size x y := by
  simp only [boundaryCells, List.mem_bind, List.mem_filterMap]
  constructor
  · rintro ⟨x, hx, y, hy, hif⟩
    by_cases hcond : x = -side / 2 ∨ x = side / 2 ∨ y = -side / 2 ∨ y = side / 2
    · rw [if_pos hcond] at hif
      exact ⟨x, hx, y, hy, hcond, (Option.some.injEq _ _ ▸ hif).symm⟩
    · rw [if_neg hcond] at hif
      cases hif
  · rintro ⟨x, hx, y, hy, hcond, rfl⟩
    exact ⟨x, hx, y, hy, by rw [if_pos hcond]⟩

theorem fract_natCast_div {i n : ℕ} (hn : 0 < n) :
    Int.fract ((i : ℚ) / n) = ((i % n : ℕ) : ℚ) / n := by
  have hn0 : (n : ℚ) ≠ 0 := by exact_mod_cast hn.ne'
  have h1 : (i : ℚ) = (n : ℚ) * ((i / n : ℕ) : ℚ) + ((i % n : ℕ) : ℚ) := by
    exact_mod_cast (Nat.div_add_mod i n).symm
  have hsplit : (i : ℚ) / n = ((i / n : ℕ) : ℤ) + ((i % n : ℕ) : ℚ) / n := by
    rw [h1, Int.cast_natCast]
    field_simp
    ring
  rw [hsplit, Int.fract_int_add, Int.fract_eq_self.mpr ?_]
  constructor
  · positivity
  · have h2 : (i % n : ℕ) < n := Nat.mod_lt _ hn
    rw [div_lt_one (by exact_mod_cast hn)]
    exact_mod_cast h2

theorem fract_two_i_div_ten_ne (i : ℕ) :
    Int.fract ((2 * i : ℚ) / 10) ≠ 1 / 2 := by
  have h1 : (2 * (i : ℚ)) / 10 = (i : ℚ) / ((5 : ℕ) : ℚ) := by push_cast; ring
  rw [h1, fract_natCast_div (by norm_num : (0:ℕ) < 5)]
  intro hcon
  have h2 : ((i % 5 : ℕ) : ℚ) * 2 = 5 := by
    rw [show (((5:ℕ)):ℚ) = (5:ℚ) from by norm_num] at hcon
    field_simp at hcon
    linarith
  have h3 : (i % 5) * 2 = 5 := by exact_mod_cast h2
  omega

/-- Positivity of the normalized noise sample at a boundary cell: the
boundary coordinate equals `2 * size` in absolute value, so its fractional
tenth is never 1/2 and the noise value is strictly above -1. -/
theorem nF_pos (P : ℕ → ℕ) (i : ℕ) (ax ay : ℚ)
    (h : ax = 2 * i ∨ ay = 2 * i) : 0 < nF P ax ay i := by
  have hz : Int.fract ((i : ℕ) : ℚ) = 0 := Int.fract_natCast i
  have hne : Int.fract (ax / 10) ≠ 1 / 2 ∨ Int.fract (ay / 10) ≠ 1 / 2 := by
    rcases h with h | h
    · left
      rw [h]
      exact fract_two_i_div_ten_ne i
    · right
      rw [h]
      exact fract_two_i_div_ten_ne i
  have := noise_gt_neg_one P (ax / 10) (ay / 10) i hz hne
  unfold nF
  linarith

/-- C8: every boundary cell of a generator frame (`drawCubeFrame(i*4, i)`)
is classified light with offset `(size/30)*15*nF` and height
`(size/30)*30*nF` when the raw noise sample exceeds the threshold, and dark
with offset `(size/30)*5*nF` and height `(size/30)*10*nF` otherwise; for
equal normalized samples `nF`, light (above-threshold) cells are strictly
taller than dark (at-or-below) cells. -/
theorem frame_cells_spec (P : ℕ → ℕ) (thr : ℚ) (i : ℕ) (hi : 1 ≤ i) :
    (∀ c ∈ (drawCubeFrame P thr ((i : ℚ) * 4) i).1,
        c.isDark = false ∧ noiseValAt P |c.x| |c.y| > thr ∧
        c.zPos = (i : ℚ) / 30 * 15 * nF P |c.x| |c.y| i ∧
        c.height = (i : ℚ) / 30 * 30 * nF P |c.x| |c.y| i) ∧
    (∀ c ∈ (drawCubeFrame P thr ((i : ℚ) * 4) i).2,
        c.isDark = true ∧ noiseValAt P |c.x| |c.y| ≤ thr ∧
        c.zPos = (i : ℚ) / 30 * 5 * nF P |c.x| |c.y| i ∧
        c.height = (i : ℚ) / 30 * 10 * nF P |c.x| |c.y| i) ∧
    (∀ c1 ∈ (drawCubeFrame P thr ((i : ℚ) * 4) i).1,
      ∀ c2 ∈ (drawCubeFrame P thr ((i : ℚ) * 4) i).2,
        nF P |c1.x| |c1.y| i = nF P |c2.x| |c2.y| i →
        c2.height < c1.height) := by
  have hmk : ∀ x y : ℚ,
      (noiseValAt P |x| |y| > thr →
        mkCell P thr i x y
          = ⟨x, y, (i : ℚ) / 30 * 15 * nF P |x| |y| i, i,
              (i : ℚ) / 30 * 30 * nF P |x| |y| i, false⟩) ∧
      (¬ noiseValAt P |x| |y| > thr →
        mkCell P thr i x y
          = ⟨x, y, (i : ℚ) / 30 * 5 * nF P |x| |y| i, i,
              (i : ℚ) / 30 * 10 * nF P |x| |y| i, true⟩) := by
    intro x y
    constructor
    · intro h; simp [mkCell, if_pos h]
    · intro h; simp [mkCell, if_neg h]
  have hlight : ∀ c ∈ (drawCubeFrame P thr ((i : ℚ) * 4) i).1,
      c.isDark = false ∧ noiseValAt P |c.x| |c.y| > thr ∧
      c.zPos = (i : ℚ) / 30 * 15 * nF P |c.x| |c.y| i ∧
      c.height = (i : ℚ) / 30 * 30 * nF P |c.x| |c.y| i := by
    intro c hc
    rw [drawCubeFrame] at hc
    simp only [List.mem_filter, Bool.not_eq_true'] at hc
    obtain ⟨hmem, hdark⟩ := hc
    obtain ⟨x, _, y, _, _, rfl⟩ := mem_boundaryCells.mp hmem
    by_cases hth : noiseValAt P |x| |y| > thr
    · rw [(hmk x y).1 hth]
      exact ⟨rfl, hth, rfl, rfl⟩
    · rw [(hmk x y).2 hth] at hdark
      cases hdark
  have hdarkc : ∀ c ∈ (drawCubeFrame P thr ((i : ℚ) * 4) i).2,
      c.isDark = true ∧ noiseValAt P |c.x| |c.y| ≤ thr ∧
      c.zPos = (i : ℚ) / 30 * 5 * nF P |c.x| |c.y| i ∧
      c.height = (i : ℚ) / 30 * 10 * nF P |c.x| |c.y| i := by
    intro c hc
    rw [drawCubeFrame] at hc
    simp only [List.mem_filter] at hc
    obtain ⟨hmem, hdark⟩ := hc
    obtain ⟨x, _, y, _, _, rfl⟩ := mem_boundaryCells.mp hmem
    by_cases hth : noiseValAt P |x| |y| > thr
    · rw [(hmk x y).1 hth] at hdark
      cases hdark
    · rw [(hmk x y).2 hth]
      exact ⟨rfl, le_of_not_lt hth, rfl, rfl⟩
  refine ⟨hlight, hdarkc, ?_⟩
  intro c1 hc1 c2 hc2 hnf
  have h1 := hlight c1 hc1
  have h2 := hdarkc c2 hc2
  have hpos : 0 < nF P |c1.x| |c1.y| i := by
    rw [drawCubeFrame] at hc1
    simp only [List.mem_filter, Bool.not_eq_true'] at hc1
    obtain ⟨x, _, y, _, hbd, rfl⟩ := mem_boundaryCells.mp hc1.1
    have hax : |x| = 2 * i ∨ |y| = 2 * i := by
      have h4 : -((i : ℚ) * 4) / 2 = -(2 * i) := by ring
      have h5 : ((i : ℚ) * 4) / 2 = 2 * i := by ring
      have hnn : (0:ℚ) ≤ 2 * i := by positivity
      rcases hbd with h | h | h | h
      · left; rw [h, h4, abs_neg, abs_of_nonneg hnn]
      · left; rw [h, h5, abs_of_nonneg hnn]
      · right; rw [h, h4, abs_neg, abs_of_nonneg hnn]
      · right; rw [h, h5, abs_of_nonneg hnn]
    have hxy : |(mkCell P thr (↑i) x y).x| = |x| ∧ |(mkCell P thr (↑i) x y).y| = |y| := by
      unfold mkCell
      split_ifs <;> exact ⟨rfl, rfl⟩
    rw [hxy.1, hxy.2]
    exact nF_pos P i |x| |y| hax
  rw [h1.2.2.2, h2.2.2.2, ← hnf]
  have hipos : (0:ℚ) < i := by exact_mod_cast hi
  nlinarith [hpos, hipos]

theorem noiseVal_neg10_eval :
    noiseValAt (fun _ => 0) |(-10 : ℚ)| |(-10 : ℚ)| = 0 := by
  rw [show |(-10 : ℚ)| = 10 from by norm_num]
  norm_num [noiseValAt, noise, lattice, fade, lerp, grad, Int.fract]

theorem mkCell_neg10_mem :
    mkCell (fun _ => 0) 0 ((5:ℕ) : ℚ) (-10) (-10)
      ∈ (drawCubeFrame (fun _ => 0) 0 (((5:ℕ) : ℚ) * 4) ((5:ℕ) : ℚ)).2 := by
  have hgrid : (-10 : ℚ) ∈ gridPoints (((5:ℕ) : ℚ) * 4) ((5:ℕ) : ℚ) := by
    rw [gridPoints, if_pos (by norm_num)]
    have h0 : (0 : ℕ) ∈ List.range ((⌊(((5:ℕ) : ℚ) * 4) / ((5:ℕ) : ℚ)⌋ + 1).toNat) := by
      rw [List.mem_range]
      norm_num
    have h2 := List.mem_map_of_mem
      (fun k : ℕ => -(((5:ℕ) : ℚ) * 4) / 2 + (k : ℚ) * ((5:ℕ) : ℚ)) h0
    rw [show (-10 : ℚ) = -(((5:ℕ) : ℚ) * 4) / 2 + ((0:ℕ) : ℚ) * ((5:ℕ) : ℚ) from by
      norm_num]
    exact h2
  have hbd : (-10 : ℚ) = -(((5:ℕ) : ℚ) * 4) / 2 ∨ (-10 : ℚ) = ((5:ℕ) : ℚ) * 4 / 2 ∨
      (-10 : ℚ) = -(((5:ℕ) : ℚ) * 4) / 2 ∨ (-10 : ℚ) = ((5:ℕ) : ℚ) * 4 / 2 := by
    left; norm_num
  have hmem : mkCell (fun _ => 0) 0 ((5:ℕ) : ℚ) (-10) (-10)
      ∈ boundaryCells (fun _ => 0) 0 (((5:ℕ) : ℚ) * 4) ((5:ℕ) : ℚ) :=
    mem_boundaryCells.mpr ⟨-10, hgrid, -10, hgrid, hbd, rfl⟩
  have hdark : (mkCell (fun _ => 0) 0 ((5:ℕ) : ℚ) (-10) (-10)).isDark = true := by
    rw [mkCell, if_neg (by rw [noiseVal_neg10_eval]; norm_num)]
  rw [drawCubeFrame]
  exact List.mem_filter.mpr ⟨hmem, hdark⟩

theorem frame_cells_spec_witness :
    1 ≤ 5 ∧
    ((mkCell (fun _ => 0) 0 ((5:ℕ) : ℚ) (-10) (-10)).isDark = true ∧
     noiseValAt (fun _ => 0) |(mkCell (fun _ => 0) 0 ((5:ℕ) : ℚ) (-10) (-10)).x|
        |(mkCell (fun _ => 0) 0 ((5:ℕ) : ℚ) (-10) (-10)).y| ≤ 0 ∧
     (mkCell (fun _ => 0) 0 ((5:ℕ) : ℚ) (-10) (-10)).zPos
       = ((5:ℕ) : ℚ) / 30 * 5 * nF (fun _ => 0)
           |(mkCell (fun _ => 0) 0 ((5:ℕ) : ℚ) (-10) (-10)).x|
           |(mkCell (fun _ => 0) 0 ((5:ℕ) : ℚ) (-10) (-10)).y| ((5:ℕ) : ℚ) ∧
     (mkCell (fun _ => 0) 0 ((5:ℕ) : ℚ) (-10) (-10)).height
       = ((5:ℕ) : ℚ) / 30 * 10 * nF (fun _ => 0)
           |(mkCell (fun _ => 0) 0 ((5:ℕ) : ℚ) (-10) (-10)).x|
           |(mkCell (fun _ => 0) 0 ((5:ℕ) : ℚ) (-10) (-10)).y| ((5:ℕ) : ℚ)) :=
  ⟨by norm_num,
   (frame_cells_spec (fun _ => 0) 0 5 (by norm_num)).2.1
     (mkCell (fun _ => 0) 0 ((5:ℕ) : ℚ) (-10) (-10)) mkCell_neg10_mem⟩

/-! ### The frame loop of buildSculpture (src/sketch.js lines 201-206)

`for (let i = iSet; i <= 65; i += iPlus) drawCubeFrame(i * 4, i)`:
the loop variable runs over the arithmetic sequence `iSet, iSet + iPlus, ...`
capped at 65, and each frame call passes side length `i * 4` with lattice
step `i`.  The loop body runs at most 66 times for every `iPlus ≥ 1`, which
the fuel argument makes explicit. -/

def frameLoop (iPlus : ℕ) : ℕ → ℕ → List ℕ
  | 0, _ => []
  | fuel + 1, i => if i ≤ 65 then i :: frameLoop iPlus fuel (i + iPlus) else []

def frameSides (iSet iPlus : ℕ) : List ℕ := frameLoop iPlus 66 iSet

/-- The `(side, size)` argument pairs of the `drawCubeFrame` calls made by
`buildSculpture` (src/sketch.js line 203: `drawCubeFrame(i * 4, i)`). -/
def frameCalls (iSet iPlus : ℕ) : List (ℚ × ℚ) :=
  (frameSides iSet iPlus).map fun i : ℕ => ((i : ℚ) * 4, (i : ℚ))

theorem frameLoop_mem (iPlus : ℕ) (hp : 0 < iPlus) :
    ∀ (fuel i j : ℕ), 66 ≤ fuel + i →
      (j ∈ frameLoop iPlus fuel i ↔ ∃ k, j = i + k * iPlus ∧ j ≤ 65) := by
  intro fuel
  induction fuel with
  | zero =>
    intro i j hfi
    simp only [frameLoop, List.not_mem_nil, false_iff]
    rintro ⟨k, rfl, hle⟩
    omega
  | succ fuel ih =>
    intro i j hfi
    by_cases hle : i ≤ 65
    · rw [frameLoop, if_pos hle]
      simp only [List.mem_cons]
      constructor
      · rintro (rfl | hmem)
        · exact ⟨0, by omega, hle⟩
        · obtain ⟨k, rfl, h2⟩ := (ih (i + iPlus) j (by omega)).mp hmem
          exact ⟨k + 1, by ring, h2⟩
      · rintro ⟨k, rfl, h2⟩
        cases k with
        | zero => left; omega
        | succ k2 =>
          right
          exact (ih (i + iPlus) _ (by omega)).mpr
            ⟨k2, by ring, h2⟩
    · rw [frameLoop, if_neg hle]
      simp only [List.not_mem_nil, false_iff]
      rintro ⟨k, rfl, h2⟩
      omega

/-- C9 counterexample: the claimed coupling "grid side length = lattice
step" fails on the very first frame of the run with `iSet = iPlus = 5`,
whose call is `drawCubeFrame(20, 5)`: side length 20, step 5. -/
theorem frame_step_claim_false :
    ¬ ∀ pr ∈ frameCalls 5 5, pr.1 = pr.2 := by
  intro h
  have h5 : (5 : ℕ) ∈ frameSides 5 5 := by decide
  have hmem : (((5:ℕ) : ℚ) * 4, ((5:ℕ) : ℚ)) ∈ frameCalls 5 5 := by
    unfold frameCalls
    exact List.mem_map_of_mem (fun i : ℕ => ((i : ℚ) * 4, (i : ℚ))) h5
  have h2 := h _ hmem
  norm_num at h2

theorem boundaryCells_boundary {P : ℕ → ℕ} {thr side size : ℚ} {c : Cell}
    (hc : c ∈ boundaryCells P thr side size) :
    c.x = -side / 2 ∨ c.x = side / 2 ∨ c.y = -side / 2 ∨ c.y = side / 2 := by
  obtain ⟨x, _, y, _, hcond, rfl⟩ := mem_boundaryCells.mp hc
  have hxy : (mkCell P thr size x y).x = x ∧ (mkCell P thr size x y).y = y := by
    unfold mkCell
    split_ifs <;> exact ⟨rfl, rfl⟩
  rw [hxy.1, hxy.2]
  exact hcond

/-- C9 (amended): the loop value `i` runs over the arithmetic sequence from
`iSet` with step `iPlus`, capped at 65, and every value of that sequence up
to the cap is visited; each frame call scans a square of side length `4 * i`
at lattice step `i` (so the step is a quarter of the scanned side length,
not equal to it); only points on the square's four edges are selected. -/
theorem frame_sequence_spec (iSet iPlus : ℕ) (hp : 0 < iPlus) :
    (∀ j ∈ frameSides iSet iPlus, j ≤ 65 ∧ ∃ k, j = iSet + k * iPlus) ∧
    (∀ k : ℕ, iSet + k * iPlus ≤ 65 → iSet + k * iPlus ∈ frameSides iSet iPlus) ∧
    (∀ pr ∈ frameCalls iSet iPlus, pr.1 = 4 * pr.2 ∧
      ∃ j ∈ frameSides iSet iPlus, pr = ((j : ℚ) * 4, (j : ℚ))) ∧
    (∀ (P : ℕ → ℕ) (thr side size : ℚ) (c : Cell),
      (c ∈ (drawCubeFrame P thr side size).1 ∨ c ∈ (drawCubeFrame P thr side size).2) →
      c.x = -side / 2 ∨ c.x = side / 2 ∨ c.y = -side / 2 ∨ c.y = side / 2) := by
  refine ⟨?_, ?_, ?_, ?_⟩
  · intro j hj
    obtain ⟨k, hk, hle⟩ := (frameLoop_mem iPlus hp 66 iSet j (by omega)).mp hj
    exact ⟨hle, k, hk⟩
  · intro k hk
    exact (frameLoop_mem iPlus hp 66 iSet _ (by omega)).mpr ⟨k, rfl, hk⟩
  · intro pr hpr
    unfold frameCalls at hpr
    obtain ⟨j, hj, rfl⟩ := List.mem_map.mp hpr
    exact ⟨by ring, j, hj, rfl⟩
  · intro P thr side size c hc
    rcases hc with hc | hc <;>
      exact boundaryCells_boundary (List.mem_filter.mp hc).1

theorem frame_sequence_spec_witness :
    0 < 5 ∧ 5 + 0 * 5 ∈ frameSides 5 5 :=
  ⟨by norm_num, (frame_sequence_spec 5 5 (by norm_num)).2.1 0 (by norm_num)⟩

/-! ### Lattice Mesh Synthesizer (src/unnamed/part_000, class ParametricDiamond)

`createGeometry` walks horizontal layers from `-height` to `0.4 * height`
in steps of `cubeSize = min(radius, height) / (layers * 2)`, lays concentric
rings of cubes inside a per-layer radius envelope and stamps one cube (8
vertices, 12 triangles) per accepted ring position.  The source stores
positions in one flat coordinate array with `startIdx = positions.length / 3`;
positions are modelled as vertex triples, so the vertex count is
`positions.length`.  The layer loop `for (y = bottomHeight; y <= topHeight;
y += cubeSize)` is a while loop over reals and is embedded with an explicit
fuel argument: `none` means the loop has not terminated within the given
fuel (for `cubeSize = 0` it never does). -/

noncomputable section Diamond

structure Mesh where
  positions : List (ℝ × ℝ × ℝ)
  indices : List ℕ

def emptyMesh : Mesh := ⟨[], []⟩

/-- The 12 triangles of `addCube` (src/unnamed/part_000 lines 94-98), as
the flat index-triple list the source pushes. -/
def cubeFaces : List ℕ :=
  [0, 1, 2, 0, 2, 3, 5, 4, 7, 5, 7, 6, 4, 0, 3, 4, 3, 7, 1, 5, 6, 1, 6, 2,
   3, 2, 6, 3, 6, 7, 4, 5, 1, 4, 1, 0]

/-- The 8 cube vertices of `addCube` (src/unnamed/part_000 lines 84-89) with
half-edge `s = size / 2`. -/
def cubeVertices (x y z s : ℝ) : List (ℝ × ℝ × ℝ) :=
  [(x - s, y - s, z - s), (x + s, y - s, z - s), (x + s, y + s, z - s),
   (x - s, y + s, z - s), (x - s, y - s, z + s), (x + s, y - s, z + s),
   (x + s, y + s, z + s), (x - s, y + s, z + s)]

/-- Embedding of `ParametricDiamond.addCube` (src/unnamed/part_000 lines
79-103). -/
def addCube (m : Mesh) (x y z size : ℝ) : Mesh :=
  ⟨m.positions ++ cubeVertices x y z (size / 2),
   m.indices ++ cubeFaces.map fun f => m.positions.length + f⟩

structure ParametricDiamond where
  radius : ℝ
  height : ℝ
  layers : ℕ

/-- The cube edge `min(radius, height) / (layers * 2)` (src/unnamed/part_000
line 75). -/
def ParametricDiamond.cubeSize (d : ParametricDiamond) : ℝ :=
  min d.radius d.height / ((d.layers : ℝ) * 2)

structure CubeSpec where
  x : ℝ
  y : ℝ
  z : ℝ
  size : ℝ

/-- The per-layer radius envelope (src/unnamed/part_000 lines 116-121):
two linear cones meeting at the equator; `-bottomHeight = height`. -/
def sliceRadius (d : ParametricDiamond) (y : ℝ) : ℝ :=
  if y > 0 then d.radius * (1 - y / (d.height * 0.4))
  else d.radius * (1 + y / d.height)

/-- The cubes stamped along one ring (src/unnamed/part_000 lines 125-139):
cube count `max(1, floor(circumference / cubeSize))`, one cube per angle
step, skipped when its radial distance exceeds the envelope. -/
def ringCubes (d : ParametricDiamond) (y maxRadius : ℝ) (ring : ℕ) : List CubeSpec :=
  let ringRadius := (ring : ℝ) * d.cubeSize
  let circumference := 2 * Real.pi * ringRadius
  let numCubes := max 1 (Int.floor (circumference / d.cubeSize)).toNat
  (List.range numCubes).filterMap fun i : ℕ =>
    let angle := ((i : ℝ) / (numCubes : ℝ)) * Real.pi * 2
    let x := Real.cos angle * ringRadius
    let z := Real.sin angle * ringRadius
    if Real.sqrt (x * x + z * z) ≤ maxRadius then
      some ⟨x, y, z, d.cubeSize * 0.95⟩
    else none

/-- All cubes of one layer: `numRings = ceil(maxRadius / cubeSize)` rings
(src/unnamed/part_000 lines 123-125). -/
def layerCubes (d : ParametricDiamond) (y : ℝ) : List CubeSpec :=
  let maxRadius := sliceRadius d y
  let numRings := (Int.ceil (maxRadius / d.cubeSize)).toNat
  (List.range numRings).bind (ringCubes d y maxRadius)

/-- The layer centers visited by `for (y = bottomHeight; y <= topHeight;
y += cubeSize)`, with fuel; `none` when the fuel is exhausted with the loop
condition still true. -/
def layerLoop (cs top : ℝ) : ℕ → ℝ → Option (List ℝ)
  | 0, y => if y ≤ top then none else some []
  | fuel + 1, y =>
    if y ≤ top then (layerLoop cs top fuel (y + cs)).map fun ys => y :: ys
    else some []

def layerCenters (d : ParametricDiamond) (fuel : ℕ) : Option (List ℝ) :=
  layerLoop d.cubeSize (d.height * 0.4) fuel (-d.height)

/-- Embedding of `ParametricDiamond.createGeometry` (src/unnamed/part_000
lines 106-141): the cubes of all layers stamped into one mesh in scan
order. -/
def createGeometry (d : ParametricDiamond) (fuel : ℕ) : Option Mesh :=
  (layerCenters d fuel).map fun ys =>
    (ys.bind (layerCubes d)).foldl (fun m c => addCube m c.x c.y c.z c.size) emptyMesh

/-- C7: with `radius = 0` and `height = 0` the cube size is 0 and the layer
loop of `createGeometry` never terminates (`y` stays at 0 and the loop
condition `y <= topHeight` stays true), for every layer count and every
amount of fuel.  The defensive epsilon clamp the specification requires does
not exist in `ParametricDiamond`. -/
theorem degenerate_diamond_diverges (l fuel : ℕ) :
    createGeometry ⟨0, 0, l⟩ fuel = none := by
  have hcs : (ParametricDiamond.mk 0 0 l).cubeSize = 0 := by
    unfold ParametricDiamond.cubeSize
    norm_num
  have hloop : ∀ n : ℕ, layerLoop 0 0 n 0 = none := by
    intro n
    induction n with
    | zero => rw [layerLoop, if_pos le_rfl]
    | succ n ih =>
      rw [layerLoop, if_pos le_rfl, add_zero, ih]
      rfl
  unfold createGeometry layerCenters
  rw [hcs, show (ParametricDiamond.mk 0 0 l).height * 0.4 = 0 from by norm_num,
    show -(ParametricDiamond.mk 0 0 l).height = 0 from by norm_num, hloop fuel]
  rfl

theorem foldl_addCube_positions (cubes : List CubeSpec) (m : Mesh) :
    (cubes.foldl (fun m c => addCube m c.x c.y c.z c.size) m).positions
      = m.positions ++ cubes.bind fun c => cubeVertices c.x c.y c.z (c.size / 2) := by
  induction cubes generalizing m with
  | nil => simp
  | cons c rest ih =>
    rw [List.foldl_cons, ih]
    show (addCube m c.x c.y c.z c.size).positions ++ _
      = m.positions ++ (cubeVertices c.x c.y c.z (c.size / 2)
          ++ rest.bind fun c => cubeVertices c.x c.y c.z (c.size / 2))
    simp only [addCube, List.append_assoc]

theorem layerLoop_mem_bounds {cs top : ℝ} (hcs : 0 ≤ cs) :
    ∀ (fuel : ℕ) (y0 : ℝ) (ys : List ℝ), layerLoop cs top fuel y0 = some ys →
      ∀ y ∈ ys, y0 ≤ y ∧ y ≤ top := by
  intro fuel
  induction fuel with
  | zero =>
    intro y0 ys h
    rw [layerLoop] at h
    split_ifs at h
    have hys : ys = [] := (Option.some.inj h).symm
    subst hys
    intro y hy
    cases hy
  | succ fuel ih =>
    intro y0 ys h
    rw [layerLoop] at h
    split_ifs at h with hle
    · cases hrec : layerLoop cs top fuel (y0 + cs) with
      | none => rw [hrec] at h; cases h
      | some ys2 =>
        rw [hrec] at h
        have hys : ys = y0 :: ys2 := by
          have h2 : some (y0 :: ys2) = some ys := h
          exact (Option.some.inj h2).symm
        subst hys
        intro y hy
        rcases List.mem_cons.mp hy with rfl | hy2
        · exact ⟨le_refl _, hle⟩
        · have h2 := ih (y0 + cs) ys2 hrec y hy2
          exact ⟨by linarith [h2.1], h2.2⟩
    · have hys : ys = [] := (Option.some.inj h).symm
      subst hys
      intro y hy
      cases hy

theorem layerCubes_fields {d : ParametricDiamond} {y : ℝ} {c : CubeSpec}
    (hc : c ∈ layerCubes d y) : c.y = y ∧ c.size = d.cubeSize * 0.95 := by
  simp only [layerCubes, List.mem_bind] at hc
  obtain ⟨ring, _, hc2⟩ := hc
  simp only [ringCubes, List.mem_filterMap] at hc2
  obtain ⟨i, _, hif⟩ := hc2
  split_ifs at hif
  have hc3 := Option.some.inj hif
  rw [← hc3]
  exact ⟨rfl, rfl⟩

theorem cubeVertices_y {x y z s : ℝ} {v : ℝ × ℝ × ℝ}
    (hv : v ∈ cubeVertices x y z s) : v.2.1 = y - s ∨ v.2.1 = y + s := by
  simp only [cubeVertices, List.mem_cons, List.not_mem_nil, or_false] at hv
  rcases hv with rfl | rfl | rfl | rfl | rfl | rfl | rfl | rfl <;> simp

/-- C6 (amended): for a nonnegative cube size, every vertex y-coordinate of
a synthesized mesh lies in `[-height - 0.475*cubeSize, 0.4*height +
0.475*cubeSize]`: layer centers stay within `[-height, 0.4*height]` and each
stamped cube (edge `0.95*cubeSize`) extends half an edge beyond its
center. -/
theorem createGeometry_y_range (d : ParametricDiamond) (fuel : ℕ) (m : Mesh)
    (hcs : 0 ≤ d.cubeSize) (hm : createGeometry d fuel = some m) :
    ∀ v ∈ m.positions,
      -d.height - 0.475 * d.cubeSize ≤ v.2.1 ∧
      v.2.1 ≤ 0.4 * d.height + 0.475 * d.cubeSize := by
  unfold createGeometry layerCenters at hm
  cases hys : layerLoop d.cubeSize (d.height * 0.4) fuel (-d.height) with
  | none => rw [hys] at hm; cases hm
  | some ys =>
    rw [hys] at hm
    have hm2 : (ys.bind (layerCubes d)).foldl
        (fun m c => addCube m c.x c.y c.z c.size) emptyMesh = m := by
      simpa using hm
    intro v hv
    rw [← hm2, foldl_addCube_positions] at hv
    simp only [emptyMesh, List.nil_append] at hv
    obtain ⟨c, hc, hvc⟩ := List.mem_bind.mp hv
    obtain ⟨y, hy, hcy⟩ := List.mem_bind.mp hc
    have hb := layerLoop_mem_bounds hcs fuel _ ys hys y hy
    have hf := layerCubes_fields hcy
    have hyv := cubeVertices_y hvc
    have htop : y ≤ d.height * 0.4 := hb.2
    have hbot : -d.height ≤ y := hb.1
    rcases hyv with h | h <;> rw [h, hf.1, hf.2] <;> constructor <;> nlinarith

/-- The layer centers of the diamond with radius 3, height 2 and 3 layers:
cube size 1/3, from -2 up to 2/3 (the next step, 1, exceeds the top 4/5). -/
theorem layerLoop_36_eval :
    layerLoop (1/3 : ℝ) (4/5) 10 (-2)
      = some [-2, -5/3, -4/3, -1, -2/3, -1/3, 0, 1/3, 2/3] := by
  have succ_pos : ∀ (fuel : ℕ) (y : ℝ), y ≤ 4/5 →
      layerLoop (1/3 : ℝ) (4/5) (fuel + 1) y
        = (layerLoop (1/3 : ℝ) (4/5) fuel (y + 1/3)).map fun ys => y :: ys := by
    intro fuel y h
    rw [layerLoop, if_pos h]
  have h1 : layerLoop (1/3 : ℝ) (4/5) 1 1 = some [] := by
    rw [layerLoop, if_neg (by norm_num)]
  have h2 : layerLoop (1/3 : ℝ) (4/5) 2 (2/3) = some [2/3] := by
    rw [succ_pos 1 (2/3) (by norm_num), show (2/3 : ℝ) + 1/3 = 1 from by norm_num, h1]
    rfl
  have h3 : layerLoop (1/3 : ℝ) (4/5) 3 (1/3) = some [1/3, 2/3] := by
    rw [succ_pos 2 (1/3) (by norm_num), show (1/3 : ℝ) + 1/3 = 2/3 from by norm_num, h2]
    rfl
  have h4 : layerLoop (1/3 : ℝ) (4/5) 4 0 = some [0, 1/3, 2/3] := by
    rw [succ_pos 3 0 (by norm_num), show (0 : ℝ) + 1/3 = 1/3 from by norm_num, h3]
    rfl
  have h5 : layerLoop (1/3 : ℝ) (4/5) 5 (-1/3) = some [-1/3, 0, 1/3, 2/3] := by
    rw [succ_pos 4 (-1/3) (by norm_num), show (-1/3 : ℝ) + 1/3 = 0 from by norm_num, h4]
    rfl
  have h6 : layerLoop (1/3 : ℝ) (4/5) 6 (-2/3) = some [-2/3, -1/3, 0, 1/3, 2/3] := by
    rw [succ_pos 5 (-2/3) (by norm_num), show (-2/3 : ℝ) + 1/3 = -1/3 from by norm_num, h5]
    rfl
  have h7 : layerLoop (1/3 : ℝ) (4/5) 7 (-1) = some [-1, -2/3, -1/3, 0, 1/3, 2/3] := by
    rw [succ_pos 6 (-1) (by norm_num), show (-1 : ℝ) + 1/3 = -2/3 from by norm_num, h6]
    rfl
  have h8 : layerLoop (1/3 : ℝ) (4/5) 8 (-4/3)
      = some [-4/3, -1, -2/3, -1/3, 0, 1/3, 2/3] := by
    rw [succ_pos 7 (-4/3) (by norm_num), show (-4/3 : ℝ) + 1/3 = -1 from by norm_num, h7]
    rfl
  have h9 : layerLoop (1/3 : ℝ) (4/5) 9 (-5/3)
      = some [-5/3, -4/3, -1, -2/3, -1/3, 0, 1/3, 2/3] := by
    rw [succ_pos 8 (-5/3) (by norm_num), show (-5/3 : ℝ) + 1/3 = -4/3 from by norm_num, h8]
    rfl
  rw [succ_pos 9 (-2) (by norm_num), show (-2 : ℝ) + 1/3 = -5/3 from by norm_num, h9]
  rfl

theorem cubeSize_36 : (ParametricDiamond.mk 3 2 3).cubeSize = 1/3 := by
  unfold ParametricDiamond.cubeSize
  norm_num

/-- The mesh synthesized for radius 3, height 2, 3 layers (fuel 10 is enough
for the 9 layers plus the final test). -/
def mesh36 : Mesh :=
  (([-2, -5/3, -4/3, -1, -2/3, -1/3, 0, 1/3, 2/3] : List ℝ).bind
    (layerCubes ⟨3, 2, 3⟩)).foldl (fun m c => addCube m c.x c.y c.z c.size) emptyMesh

theorem mesh36_eq : createGeometry ⟨3, 2, 3⟩ 10 = some mesh36 := by
  unfold createGeometry layerCenters
  rw [cubeSize_36,
    show (ParametricDiamond.mk 3 2 3).height * 0.4 = 4/5 from by norm_num,
    show -(ParametricDiamond.mk 3 2 3).height = -2 from by norm_num,
    layerLoop_36_eval]
  rfl

theorem sliceRadius_36 : sliceRadius ⟨3, 2, 3⟩ (2/3 : ℝ) = 1/2 := by
  unfold sliceRadius
  rw [if_pos (by norm_num : (2/3 : ℝ) > 0)]
  norm_num

theorem ringCubes_zero_mem (d : ParametricDiamond) (y maxR : ℝ) (hmr : 0 ≤ maxR) :
    ⟨0, y, 0, d.cubeSize * 0.95⟩ ∈ ringCubes d y maxR 0 := by
  simp only [ringCubes, Nat.cast_zero, zero_mul, mul_zero, zero_div,
    Int.floor_zero, Int.toNat_zero, Nat.max_zero, List.mem_filterMap,
    add_zero, Real.sqrt_zero]
  refine ⟨0, ?_, ?_⟩
  · simp
  · rw [if_pos hmr]

theorem layerCubes_36_top_nonempty :
    (⟨0, 2/3, 0, (ParametricDiamond.mk 3 2 3).cubeSize * 0.95⟩ : CubeSpec)
      ∈ layerCubes ⟨3, 2, 3⟩ (2/3 : ℝ) := by
  simp only [layerCubes, List.mem_bind]
  refine ⟨0, ?_, ?_⟩
  · rw [List.mem_range, sliceRadius_36, cubeSize_36]
    norm_num
  · rw [sliceRadius_36]
    exact ringCubes_zero_mem ⟨3, 2, 3⟩ (2/3) (1/2) (by norm_num)

/-- C6 counterexample: the mesh synthesized for radius 3, height 2 and 3
layers has a vertex with y-coordinate 33/40 = 0.825, outside the claimed
range `[-2, 0.8]`: the topmost layer center is 2/3 and each cube extends
0.95/6 above its center. -/
theorem diamond_y_claim_false :
    ∃ m : Mesh, createGeometry ⟨3, 2, 3⟩ 10 = some m ∧
      ¬ (∀ v ∈ m.positions, -2 ≤ v.2.1 ∧ v.2.1 ≤ (0.4 : ℝ) * 2) := by
  refine ⟨mesh36, mesh36_eq, ?_⟩
  intro hall
  have hc := layerCubes_36_top_nonempty
  set c : CubeSpec := ⟨0, 2/3, 0, (ParametricDiamond.mk 3 2 3).cubeSize * 0.95⟩
  have hf := layerCubes_fields hc
  have hcbind : c ∈ ([-2, -5/3, -4/3, -1, -2/3, -1/3, 0, 1/3, 2/3] : List ℝ).bind
      (layerCubes ⟨3, 2, 3⟩) := by
    rw [List.mem_bind]
    exact ⟨2/3, by norm_num, hc⟩
  have hv : (c.x + c.size / 2, c.y + c.size / 2, c.z + c.size / 2)
      ∈ mesh36.positions := by
    rw [mesh36, foldl_addCube_positions]
    simp only [emptyMesh, List.nil_append]
    rw [List.mem_bind]
    refine ⟨c, hcbind, ?_⟩
    simp [cubeVertices]
  have h2 := (hall _ hv).2
  simp only at h2
  rw [cubeSize_36] at h2
  norm_num at h2

theorem createGeometry_y_range_witness :
    (0 : ℝ) ≤ (ParametricDiamond.mk 3 2 3).cubeSize ∧
    ∀ v ∈ mesh36.positions,
      -(ParametricDiamond.mk 3 2 3).height
          - 0.475 * (ParametricDiamond.mk 3 2 3).cubeSize ≤ v.2.1 ∧
      v.2.1 ≤ 0.4 * (ParametricDiamond.mk 3 2 3).height
          + 0.475 * (ParametricDiamond.mk 3 2 3).cubeSize :=
  ⟨by rw [cubeSize_36]; norm_num,
   createGeometry_y_range ⟨3, 2, 3⟩ 10 mesh36
     (by rw [cubeSize_36]; norm_num) mesh36_eq⟩

end Diamond

end ROJT
